import Mathlib

/-!
Verification development for the cargo-goggles repository.

Shallow embedding of the parts of the program the claims are about:
* `src/io.rs`   — the ASCII-whitespace-skipping reader;
* `src/main.rs` — the per-package checksum step and the archive scan that
  extracts `.cargo_vcs_info.json` and `Cargo.toml`;
* `src/package.rs` — `Package::contents`, `PackageContents::compare` and
  `is_path_ignored`;
* `src/git.rs`  — `GitTags::find_tag_for_version` and the `TryFrom<Url>`
  normalization for `GitUrl`.

Bytes are modelled as `Nat`, Rust strings either as Lean `String` (where only
concatenation and equality matter) or as `List Char` (where the proofs take
strings apart), archives as lists of entries, and `BTreeMap`s as association
lists with `Nodup` keys.  Fallible Rust code (`ensure!`, `?`) is modelled with
`Except`.
-/

set_option autoImplicit false

namespace CargoGoggles

/-! ## Whitespace-skipping reader (src/io.rs)

`u8::is_ascii_whitespace` matches space, horizontal tab, line feed,
form feed and carriage return. -/

def isAsciiWhitespace (b : Nat) : Bool :=
  b == 32 || b == 9 || b == 10 || b == 12 || b == 13

/-- The inner `while !read_buf.is_empty() && !buf.is_empty()` loop of
`AsciiWhitespaceSkippingReader::read` (src/io.rs lines 29–40).
Arguments: the bytes `fill_buf` returned and the free space left in `buf`.
Returns the bytes written into `buf` and the count of bytes consumed from the
underlying reader (whitespace bytes are consumed but not written). -/
def wsInner : List Nat → Nat → List Nat × Nat
  | [], _ => ([], 0)
  | _ :: _, 0 => ([], 0)
  | b :: rest, s + 1 =>
    if isAsciiWhitespace b then
      let r := wsInner rest (s + 1)
      (r.1, r.2 + 1)
    else
      let r := wsInner rest s
      (b :: r.1, r.2 + 1)

/-- One call of `AsciiWhitespaceSkippingReader::read` (src/io.rs lines 15–46).
The underlying `BufRead` is modelled as a list of chunks: `fill_buf` returns
the first chunk (an empty first chunk, which a `BufReader` only produces at
end of file, stops the loop), `consume` drops the consumed bytes from it.
Returns the bytes written for a buffer with `space` free bytes, and the state
of the underlying reader afterwards. -/
def wsRead : List (List Nat) → Nat → List Nat × List (List Nat)
  | chunks, 0 => ([], chunks)
  | [], _ + 1 => ([], [])
  | [] :: rest, _ + 1 => ([], [] :: rest)
  | (b :: chunk) :: rest, s + 1 =>
    let r := wsInner (b :: chunk) (s + 1)
    let newChunk := (b :: chunk).drop r.2
    let chunks2 := if newChunk.isEmpty then rest else newChunk :: rest
    let r2 := wsRead chunks2 (s + 1 - r.1.length)
    (r.1 ++ r2.1, r2.2)
termination_by chunks _ => (chunks.map List.length).sum
decreasing_by
  simp only [List.map_cons, List.sum_cons, List.length_cons]
  have hr2 : 1 ≤ (wsInner (b :: chunk) (s + 1)).2 := by
    rw [wsInner]
    split <;> simp
  split
  · omega
  · simp only [List.map_cons, List.sum_cons, List.length_drop, List.length_cons]
    omega

/-- The `io::copy` loop around the reader: call `read` with a buffer of
`bufSize` bytes until it returns `Ok(0)`, concatenating everything read.
`fuel` bounds the number of `read` calls; `wsReadToEnd` below instantiates it
with a provably sufficient value. -/
def wsReadToEndFuel : Nat → Nat → List (List Nat) → List Nat
  | 0, _, _ => []
  | fuel + 1, bufSize, chunks =>
    let r := wsRead chunks bufSize
    if r.1.isEmpty then []
    else r.1 ++ wsReadToEndFuel fuel bufSize r.2

/-- Reading a stream to its end through `AsciiWhitespaceSkippingReader`:
every `read` call that returns bytes consumes at least one input byte, so
`total number of input bytes + 1` calls always suffice. -/
def wsReadToEnd (bufSize : Nat) (chunks : List (List Nat)) : List Nat :=
  wsReadToEndFuel (chunks.flatten.length + 1) bufSize chunks

/-! ## The checksum step of the main loop (src/main.rs lines 75–156)

One record of the lock file, restricted to the fields the checksum step
reads.  `bytes` are the raw bytes of the cached `.tar.gz` archive for the
package, `checksum` the optional expected SHA-256 digest from `Cargo.lock`. -/

structure LockPackage where
  name : String
  bytes : List Nat
  checksum : Option (List Nat)
deriving DecidableEq

/-- The `match package.checksum` block of `main` (src/main.rs lines 139–156),
with SHA-256 as an abstract function from bytes to digests.  A present,
matching checksum produces nothing; a missing checksum produces the
informational line; a mismatch hits `ensure!`, i.e. returns an error from
`main`. -/
def checksumStep (sha256 : List Nat → List Nat) (p : LockPackage) :
    Except String (List String) :=
  match p.checksum with
  | some expected =>
    if sha256 p.bytes = expected then .ok []
    else .error ("package " ++ p.name ++ " digest doesn't match")
  | none => .ok ["package " ++ p.name ++ " doesn't have a checksum"]

/-- The `for package in lock.packages` loop of `main` (src/main.rs lines
75–524), at the granularity the checksum claim needs: each package that
reaches the checksum step runs `checksumStep`; the phases after it (archive
scan, clone, tag match, checkout, build, compare) are abstracted as `rest`,
which may log lines (`.ok`) or fail the run through one of the later
`ensure!`s (`.error`).  An `ensure!` failure propagates out of `main`, ending
the loop, so the fold stops at the first `.error`. -/
def runBatch (sha256 : List Nat → List Nat)
    (rest : LockPackage → Except String (List String)) :
    List LockPackage → Except String (List String)
  | [] => .ok []
  | p :: ps =>
    match checksumStep sha256 p with
    | .error e => .error e
    | .ok logs1 =>
      match rest p with
      | .error e => .error e
      | .ok logs2 =>
        match runBatch sha256 rest ps with
        | .error e => .error e
        | .ok logs3 => .ok (logs1 ++ logs2 ++ logs3)

/-! ## The archive scan of the main loop (src/main.rs lines 158–192) -/

/-- `CargoVcsInfo` (src/main.rs lines 29–38), flattened: the parsed
`.cargo_vcs_info.json` payload, of which only `git.sha1` is read. -/
structure VcsInfo where
  sha1 : String
deriving DecidableEq

/-- One entry of the streamed `.tar.gz`, as seen by the scan loop:
its path (a UTF-8 string) and the results of the two parses the loop may
attempt on its bytes.  `vcsParse` is the outcome of
`serde_json::from_reader::<_, CargoVcsInfo>` (`none` = parse failure),
`tomlParse` the outcome of `Manifest::from_str` (`none` = parse failure);
the manifest itself is modelled by its text. -/
structure TarEntry where
  path : String
  vcsParse : Option VcsInfo
  tomlParse : Option String
deriving DecidableEq

/-- Rust `str::ends_with(&str)`: suffix test on the character sequence. -/
def strEndsWith (s suffix : String) : Bool :=
  suffix.toList.isSuffixOf s.toList

/-- The two mutable locals of the scan (src/main.rs lines 162–163). -/
structure ScanState where
  cargo_vcs_info : Option VcsInfo
  cargo_toml : Option String
deriving DecidableEq

/-- The `for entry in tar.entries()` loop (src/main.rs lines 166–192).
Entries whose path ends in `.cargo_vcs_info.json` must not find an already
parsed hint (`ensure!`), then store their own best-effort parse; entries
whose path ends in `Cargo.toml` log a line if a manifest was already stored,
then overwrite it (a parse failure propagates via `?`); all other entries are
skipped.  Returns the final state and the printed lines. -/
def scanEntries : List TarEntry → ScanState → Except String (ScanState × List String)
  | [], st => .ok (st, [])
  | e :: es, st =>
    if strEndsWith e.path ".cargo_vcs_info.json" then
      if st.cargo_vcs_info.isSome then
        .error "`.cargo_vcs_info.json` encountered multiple times"
      else
        scanEntries es { st with cargo_vcs_info := e.vcsParse }
    else if strEndsWith e.path "Cargo.toml" then
      match e.tomlParse with
      | none => .error "couldn't parse manifest"
      | some m =>
        match scanEntries es { st with cargo_toml := some m } with
        | .error err => .error err
        | .ok (st2, logs) =>
          .ok (st2,
            (if st.cargo_toml.isSome
              then ["`Cargo.toml` encountered multiple times"] else []) ++ logs)
    else
      scanEntries es st

/-! ## Package contents and comparison (src/package.rs)

Archive-relative paths are modelled as their list of components
(`PathBuf::components`), digests as byte lists. -/

/-- `Path::file_name`: the last component, unless it is `..`. -/
def fileName (p : List String) : Option String :=
  match p.getLast? with
  | some s => if s = ".." then none else some s
  | none => none

/-- `is_path_ignored` (src/package.rs lines 96–102). -/
def is_path_ignored (p : List String) : Bool :=
  match fileName p with
  | some name => [".cargo_vcs_info.json", "Cargo.toml"].any (fun n => n = name)
  | none => false

/-- The digest stored for one archive entry (src/package.rs lines 53–56):
SHA-512 — abstract here — of the entry's bytes as read through
`AsciiWhitespaceSkippingReader`, i.e. of the bytes with ASCII whitespace
removed (theorem `c4_whitespace_skipping_reader` below relates the reader to
this `filter`). -/
def entryDigest (sha512 : List Nat → List Nat) (bytes : List Nat) : List Nat :=
  sha512 (bytes.filter (fun b => !isAsciiWhitespace b))

/-- `BTreeMap::insert`: replace the value under an existing key, otherwise
add the binding.  The model keeps bindings in a list with unique keys;
ordering of the bindings is irrelevant to every claim below. -/
def mapInsert (k : List String) (v : List Nat) (m : List (List String × List Nat)) :
    List (List String × List Nat) :=
  if m.any (fun e => e.1 = k) then
    m.map (fun e => if e.1 = k then (k, v) else e)
  else m ++ [(k, v)]

/-- `Package::contents` (src/package.rs lines 45–61): every archive entry —
with no exception — is hashed through the whitespace-skipping reader and
inserted into the map under its path. -/
def packageContents (sha512 : List Nat → List Nat)
    (entries : List (List String × List Nat)) : List (List String × List Nat) :=
  entries.foldl (fun m e => mapInsert e.1 (entryDigest sha512 e.2) m) []

/-- `BTreeMap::get` on the association-list model. -/
def mapGet (m : List (List String × List Nat)) (k : List String) : Option (List Nat) :=
  (m.find? (fun e => e.1 = k)).map (fun e => e.2)

/-- `BTreeMap::contains_key` on the association-list model. -/
def mapHasKey (m : List (List String × List Nat)) (k : List String) : Bool :=
  (mapGet m k).isSome

/-- `PackageComparison` (src/package.rs lines 20–26). -/
inductive PackageComparison where
  | Equal : List String → PackageComparison
  | Different : List String → PackageComparison
  | OnlyLeft : List String → PackageComparison
  | OnlyRight : List String → PackageComparison
deriving DecidableEq

/-- The path carried by a comparison outcome. -/
def pcPath : PackageComparison → List String
  | .Equal p => p
  | .Different p => p
  | .OnlyLeft p => p
  | .OnlyRight p => p

/-- `PackageContents::compare` (src/package.rs lines 64–93): walk the left
map's non-ignored bindings classifying each against the right map, then the
right map's non-ignored bindings that have no key in the left map. -/
def comparePC (left right : List (List String × List Nat)) : List PackageComparison :=
  (left.filter (fun e => !is_path_ignored e.1)).map (fun e =>
    match mapGet right e.1 with
    | some rightHash => if e.2 = rightHash then .Equal e.1 else .Different e.1
    | none => .OnlyLeft e.1)
  ++ (right.filter (fun e => !is_path_ignored e.1)).filterMap (fun e =>
    if mapHasKey left e.1 then none else some (.OnlyRight e.1))

/-! ## Tag matching (src/git.rs lines 151–185) -/

/-- `semver::Version`: numeric triple plus pre-release and build-metadata
strings (empty string = absent, as in `semver`). -/
structure SemVersion where
  major : Nat
  minor : Nat
  patch : Nat
  pre : String
  build : String
deriving DecidableEq

/-- The `Display` form of a `semver::Version`:
`major.minor.patch[-pre][+build]`. -/
def versionToString (v : SemVersion) : String :=
  toString v.major ++ "." ++ toString v.minor ++ "." ++ toString v.patch
    ++ (if v.pre = "" then "" else "-" ++ v.pre)
    ++ (if v.build = "" then "" else "+" ++ v.build)

/-- `clean_version` (src/git.rs lines 153–154): the version with
`build = BuildMetadata::EMPTY`. -/
def cleanVersion (v : SemVersion) : SemVersion :=
  { v with build := "" }

/-- The name-prefixed candidates of the `possible_tags` array
(src/git.rs lines 157–166), in source order. -/
def namePrefixedCandidates (name : String) (v : SemVersion) : List String :=
  [ name ++ "-v" ++ versionToString v
  , name ++ "-" ++ versionToString v
  , name ++ "_v" ++ versionToString v
  , name ++ "_" ++ versionToString v
  , name ++ "/v" ++ versionToString v
  , name ++ "v/" ++ versionToString v
  , name ++ "/" ++ versionToString v
  , name ++ "@v" ++ versionToString v
  , name ++ "@" ++ versionToString v ]

/-- The version-only candidates of the `possible_tags` array
(src/git.rs lines 167–170), in source order. -/
def versionOnlyCandidates (v : SemVersion) : List String :=
  [ "v" ++ versionToString v
  , versionToString v
  , "v/" ++ versionToString v ]

/-- The full `possible_tags` array (src/git.rs lines 156–171). -/
def possibleTags (name : String) (v : SemVersion) : List String :=
  namePrefixedCandidates name v ++ versionOnlyCandidates v

/-- `GitTags::find_tag_for_version` (src/git.rs lines 152–175): the tag set
(in the source a `BTreeSet<GitTag>`, here the list of tag names) is probed
with each candidate in order via `find_map`; the first candidate with a
matching tag in the set yields that tag. -/
def find_tag_for_version (tags : List String) (name : String) (version : SemVersion) :
    Option String :=
  (possibleTags name (cleanVersion version)).findSome?
    (fun possibleTag => tags.find? (fun tag => tag == possibleTag))

/-! ## URL normalization (src/git.rs lines 229–259)

The proofs about normalization take strings apart, so here Rust `str` is
modelled as `List Char`. -/

/-- Rust `str::split('/')`: a list of separator-free segments; splitting the
empty string yields one empty segment, and the result is never empty. -/
def splitOnChar (c : Char) : List Char → List (List Char)
  | [] => [[]]
  | x :: xs =>
    if x = c then [] :: splitOnChar c xs
    else (x :: (splitOnChar c xs).headI) :: (splitOnChar c xs).tail

/-- Helper for `trim_end_matches(".git")`, working on the reversed string:
drop leading copies of the reversal of `.git`. -/
def dropGitGroupsRev : List Char → List Char
  | 't' :: 'i' :: 'g' :: '.' :: rest => dropGitGroupsRev rest
  | l => l

/-- Rust `str::trim_end_matches(".git")`: repeatedly remove a trailing
`.git`. -/
def trimEndGit (l : List Char) : List Char :=
  (dropGitGroupsRev l.reverse).reverse

/-- The components of a `url::Url` that the normalization reads or writes.
The `url` crate guarantees that an http/https URL's `path()` starts with
`/`; serialization details (percent-encoding inside `set_path`) are not
modelled, the path is stored as the character string. -/
structure RUrl where
  scheme : List Char
  host : Option (List Char)
  port : Option Nat
  path : List Char
  query : Option (List Char)
  fragment : Option (List Char)
deriving DecidableEq

/-- The known-forge test of src/git.rs line 243:
`host == "github.com" || host.starts_with("gitlab.")`. -/
def isForgeHost (host : List Char) : Bool :=
  host = "github.com".toList || "gitlab.".toList.isPrefixOf host

/-- `TryFrom<Url> for GitUrl` (src/git.rs lines 229–259): scheme must be
http or https, a host must be present; for known-forge hosts the path is
rewritten to `/{owner}/{repo}.git` from its first two segments, stripping
trailing `.git` repetitions from the second; other hosts pass through
unchanged.  The source unwraps `path().strip_prefix('/')`, relying on the
`url` crate's invariant; a path without the leading slash is mapped to an
error here, standing for that panic. -/
def gitUrlTryFrom (url : RUrl) : Except String RUrl :=
  if url.scheme = "http".toList ∨ url.scheme = "https".toList then
    match url.host with
    | none => .error "repository doesn't have a `host`"
    | some host =>
      if isForgeHost host then
        match url.path with
        | '/' :: pathRest =>
          match splitOnChar '/' pathRest with
          | [] => .error "repository is missing user/org"
          | [_] => .error "repository is missing repo name"
          | owner :: repo :: _ =>
            .ok { url with
              path := '/' :: (owner ++ '/' :: (trimEndGit repo ++ ".git".toList)) }
        | _ => .error "path of an http or https url starts with a slash"
      else .ok url
  else .error "Bad repository scheme"

/-! ## Theorems -/

/-! ### C1 — checksum mismatch (src/main.rs lines 139–156) -/

/-- C1, counterexample: a batch of two packages in which the first package's
expected checksum does not match the digest of its cached bytes.  The run
returns the mismatch error: it does not print a diagnostic line and move on,
and the second package — which on its own processes fine, second conjunct —
is never reached.  This contradicts the claim that processing continues with
the remaining packages of the batch. -/
theorem c1_counterexample :
    runBatch (fun bytes => bytes) (fun p => .ok ["processed " ++ p.name])
        [⟨"alpha", [1], some [2]⟩, ⟨"beta", [5], some [5]⟩]
      = .error "package alpha digest doesn't match"
    ∧ runBatch (fun bytes => bytes) (fun p => .ok ["processed " ++ p.name])
        [⟨"beta", [5], some [5]⟩]
      = .ok ["processed beta"] :=
  ⟨rfl, rfl⟩

/-- C1 (corrected): if a package record carries an expected SHA-256 checksum
and it does not match the SHA-256 of the raw cached archive bytes, the
`ensure!` in `main` fails: the whole run returns the error
`package {name} digest doesn't match`.  Checkout/build is never attempted
for that package, the cached file is not deleted (no code path deletes it),
and — contrary to the claim — the remaining packages of the batch are not
processed either. -/
theorem c1_checksum_mismatch_aborts_run
    (sha256 : List Nat → List Nat) (rest : LockPackage → Except String (List String))
    (p : LockPackage) (ps : List LockPackage) (expected : List Nat)
    (hck : p.checksum = some expected) (hne : sha256 p.bytes ≠ expected) :
    runBatch sha256 rest (p :: ps)
      = .error ("package " ++ p.name ++ " digest doesn't match") := by
  simp only [runBatch, checksumStep, hck, if_neg hne]

/-- Witness for `c1_checksum_mismatch_aborts_run` at a concrete batch. -/
theorem c1_checksum_mismatch_aborts_run_witness :
    runBatch (fun bytes => bytes) (fun _ => .ok [])
        [⟨"alpha", [1], some [2]⟩, ⟨"beta", [5], some [5]⟩]
      = .error "package alpha digest doesn't match" := by
  rw [c1_checksum_mismatch_aborts_run (fun bytes => bytes) (fun _ => .ok [])
    ⟨"alpha", [1], some [2]⟩ [⟨"beta", [5], some [5]⟩] [2] rfl (by decide)]
  exact congrArg Except.error (by decide)

/-! ### C3 — tag matching (src/git.rs lines 151–185) -/

/-- Probing a tag set with one candidate finds exactly that candidate string
when it is contained in the set. -/
theorem find?_beq_self (tags : List String) (pt : String) :
    tags.find? (fun tag => tag == pt)
      = if pt ∈ tags then some pt else none := by
  induction tags with
  | nil => rfl
  | cons t ts ih =>
    by_cases h : t = pt
    · subst h
      simp [List.find?]
    · have hb : (t == pt) = false := by simpa using h
      have hne : pt ≠ t := fun hh => h hh.symm
      simp [List.find?, hb, ih, hne]

/-- The `find_map`-over-candidates loop returns the first candidate contained
in the tag set. -/
theorem findSome?_eq_find?_contains (cands tags : List String) :
    cands.findSome? (fun possibleTag => tags.find? (fun tag => tag == possibleTag))
      = cands.find? (fun possibleTag => tags.contains possibleTag) := by
  induction cands with
  | nil => rfl
  | cons c cs ih =>
    rw [List.findSome?_cons, find?_beq_self, List.find?_cons]
    by_cases h : c ∈ tags
    · simp [h]
    · simp [h, ih]

/-- C3 (confirmed): `find_tag_for_version` returns the first candidate of
the fixed ordered `possible_tags` list that is present in the tag set; the
list is the nine name-prefixed forms followed by the three bare-version
forms; when no candidate is present the result is `none` (no error); on the
tag set `{"foo-v1.2.3", "v1.2.3"}` with name `foo` and version `1.2.3` it
returns `foo-v1.2.3`, and on the empty tag set it returns `none`. -/
theorem c3_find_tag_first_candidate :
    (∀ (tags : List String) (name : String) (v : SemVersion),
        find_tag_for_version tags name v
          = (possibleTags name (cleanVersion v)).find? (fun c => tags.contains c))
    ∧ (∀ (name : String) (v : SemVersion),
        possibleTags name v = namePrefixedCandidates name v ++ versionOnlyCandidates v)
    ∧ (∀ (tags : List String) (name : String) (v : SemVersion),
        (∀ c ∈ possibleTags name (cleanVersion v), tags.contains c = false) →
        find_tag_for_version tags name v = none)
    ∧ find_tag_for_version ["foo-v1.2.3", "v1.2.3"] "foo" ⟨1, 2, 3, "", ""⟩
        = some "foo-v1.2.3"
    ∧ (∀ (name : String) (v : SemVersion),
        find_tag_for_version [] name v = none) := by
  have key : ∀ (tags : List String) (name : String) (v : SemVersion),
      find_tag_for_version tags name v
        = (possibleTags name (cleanVersion v)).find? (fun c => tags.contains c) :=
    fun tags name v => findSome?_eq_find?_contains _ tags
  refine ⟨key, fun _ _ => rfl, ?_, by decide, ?_⟩
  · intro tags name v h
    rw [key]
    exact List.find?_eq_none.mpr (fun c hc => by
      have hcc := h c hc
      simp only [List.contains, List.elem_eq_mem, decide_eq_false_iff_not] at hcc
      simpa using hcc)
  · intro name v
    rw [key]
    exact List.find?_eq_none.mpr (fun c _ => by simp)

/-- Witness for the no-candidate clause of `c3_find_tag_first_candidate`:
a nonempty tag set containing none of the candidates yields `none`. -/
theorem c3_find_tag_first_candidate_witness :
    find_tag_for_version ["release-20", "foo-1.2.4"] "foo" ⟨1, 2, 3, "", ""⟩ = none :=
  c3_find_tag_first_candidate.2.2.1 ["release-20", "foo-1.2.4"] "foo" ⟨1, 2, 3, "", ""⟩
    (by decide)

/-! ### C7 — duplicate `Cargo.toml` (src/main.rs lines 183–191) -/

/-- C7, counterexample: an archive with two manifest entries carrying
different manifests.  The scan succeeds and logs the duplicate-manifest
line, but the manifest kept is the one of the second entry, not the first. -/
theorem c7_counterexample :
    scanEntries
        [⟨"pkg/Cargo.toml", none, some "manifest-one"⟩,
         ⟨"pkg2/Cargo.toml", none, some "manifest-two"⟩]
        ⟨none, none⟩
      = .ok (⟨none, some "manifest-two"⟩, ["`Cargo.toml` encountered multiple times"])
    ∧ some "manifest-two" ≠ some "manifest-one" :=
  ⟨rfl, by decide⟩

/-- C7 (corrected): a manifest entry that arrives while a manifest is
already stored is non-fatal: the duplicate-manifest line is printed and the
scan continues, but the manifest parsed from the later entry replaces the
stored one — the last manifest encountered is kept, not the first. -/
theorem c7_duplicate_manifest_logged_last_wins
    (es : List TarEntry) (st : ScanState) (e : TarEntry) (m0 m : String)
    (hst : st.cargo_toml = some m0)
    (hv : strEndsWith e.path ".cargo_vcs_info.json" = false)
    (ht : strEndsWith e.path "Cargo.toml" = true)
    (hp : e.tomlParse = some m) :
    scanEntries (e :: es) st
      = (scanEntries es { st with cargo_toml := some m }).map
          (fun r => (r.1, "`Cargo.toml` encountered multiple times" :: r.2)) := by
  rw [scanEntries]
  simp only [hv, ht, hp, hst, Bool.false_eq_true, if_false, if_true, Option.isSome_some]
  cases scanEntries es { st with cargo_toml := some m } with
  | error e => rfl
  | ok r => rfl

/-- Witness for `c7_duplicate_manifest_logged_last_wins` at a concrete
archive tail. -/
theorem c7_duplicate_manifest_logged_last_wins_witness :
    scanEntries [⟨"b/Cargo.toml", none, some "second"⟩] ⟨none, some "first"⟩
      = .ok (⟨none, some "second"⟩, ["`Cargo.toml` encountered multiple times"]) := by
  rw [c7_duplicate_manifest_logged_last_wins [] ⟨none, some "first"⟩
    ⟨"b/Cargo.toml", none, some "second"⟩ "first" "second" rfl rfl rfl rfl]
  rfl

/-! ### C8 — duplicate `.cargo_vcs_info.json` (src/main.rs lines 176–182) -/

/-- C8, counterexample: an archive with two entries whose paths match the
VCS-hint filename, where the first entry's JSON fails to parse.  The stored
hint is still `none` when the second entry arrives, so the `ensure!` passes:
the scan succeeds (with the second entry's hint) instead of failing with a
hard error as the claim requires for every such archive. -/
theorem c8_counterexample :
    scanEntries
        [⟨"pkg/.cargo_vcs_info.json", none, none⟩,
         ⟨"other/.cargo_vcs_info.json", some ⟨"abc"⟩, none⟩]
        ⟨none, none⟩
      = .ok (⟨some ⟨"abc"⟩, none⟩, []) :=
  rfl

/-- C8 (corrected): a VCS-hint entry is a hard error exactly when a
previously encountered VCS-hint entry parsed successfully (the stored hint
is present); when the stored hint is absent — in particular after an earlier
VCS-hint entry failed to parse — the entry is processed without error, its
best-effort parse becoming the new hint, so a parse failure is silently
treated as no hint. -/
theorem c8_duplicate_vcs_hint_hard_error
    (es : List TarEntry) (st : ScanState) (e : TarEntry)
    (hv : strEndsWith e.path ".cargo_vcs_info.json" = true) :
    (st.cargo_vcs_info.isSome = true →
      scanEntries (e :: es) st
        = .error "`.cargo_vcs_info.json` encountered multiple times")
    ∧ (st.cargo_vcs_info = none →
      scanEntries (e :: es) st
        = scanEntries es { st with cargo_vcs_info := e.vcsParse }) := by
  constructor
  · intro hsome
    rw [scanEntries]
    simp [hv, hsome]
  · intro hnone
    rw [scanEntries]
    simp [hv, hnone]

/-- Witness for `c8_duplicate_vcs_hint_hard_error`: a second VCS-hint entry
after a successfully parsed one aborts the package. -/
theorem c8_duplicate_vcs_hint_hard_error_witness :
    scanEntries [⟨"b/.cargo_vcs_info.json", some ⟨"zzz"⟩, none⟩] ⟨some ⟨"abc"⟩, none⟩
      = .error "`.cargo_vcs_info.json` encountered multiple times" :=
  (c8_duplicate_vcs_hint_hard_error [] ⟨some ⟨"abc"⟩, none⟩
    ⟨"b/.cargo_vcs_info.json", some ⟨"zzz"⟩, none⟩ rfl).1 rfl

/-! ### C2 — the contents map and the ignore-list (src/package.rs) -/

/-- A key is present in a map exactly when some binding carries it. -/
theorem mapHasKey_iff (m : List (List String × List Nat)) (k : List String) :
    mapHasKey m k = true ↔ ∃ e ∈ m, e.1 = k := by
  simp [mapHasKey, mapGet, List.find?_isSome]

/-- `mapInsert` adds its key to the key set and keeps every existing key. -/
theorem mapHasKey_mapInsert (m : List (List String × List Nat))
    (k p : List String) (v : List Nat) :
    mapHasKey (mapInsert k v m) p = true ↔ (mapHasKey m p = true ∨ p = k) := by
  rw [mapHasKey_iff, mapHasKey_iff, mapInsert]
  split
  · rename_i hany
    rw [List.any_eq_true] at hany
    obtain ⟨w, hw, hwk⟩ := hany
    rw [decide_eq_true_iff] at hwk
    constructor
    · rintro ⟨e, he, hk⟩
      rw [List.mem_map] at he
      obtain ⟨e0, he0, rfl⟩ := he
      by_cases h0 : e0.1 = k
      · rw [if_pos h0] at hk
        exact Or.inr hk.symm
      · rw [if_neg h0] at hk
        exact Or.inl ⟨e0, he0, hk⟩
    · rintro (⟨e, he, hk⟩ | rfl)
      · by_cases h0 : e.1 = k
        · refine ⟨(k, v), List.mem_map.mpr ⟨e, he, by rw [if_pos h0]⟩, ?_⟩
          rw [← hk, h0]
        · exact ⟨e, List.mem_map.mpr ⟨e, he, by rw [if_neg h0]⟩, hk⟩
      · exact ⟨(p, v), List.mem_map.mpr ⟨w, hw, by rw [if_pos hwk]⟩, rfl⟩
  · constructor
    · rintro ⟨e, he, hk⟩
      rcases List.mem_append.mp he with he | he
      · exact Or.inl ⟨e, he, hk⟩
      · rw [List.mem_singleton] at he
        subst he
        exact Or.inr hk.symm
    · rintro (⟨e, he, hk⟩ | rfl)
      · exact ⟨e, List.mem_append.mpr (Or.inl he), hk⟩
      · exact ⟨(p, v), List.mem_append.mpr (Or.inr (List.mem_singleton.mpr rfl)), rfl⟩

/-- The key set accumulated by the `contents` fold: the initial keys plus
the paths of the folded entries. -/
theorem mapHasKey_contents_fold
    (sha512 : List Nat → List Nat) (entries : List (List String × List Nat))
    (acc : List (List String × List Nat)) (p : List String) :
    mapHasKey (entries.foldl (fun m e => mapInsert e.1 (entryDigest sha512 e.2) m) acc) p = true
      ↔ (mapHasKey acc p = true ∨ p ∈ entries.map Prod.fst) := by
  induction entries generalizing acc with
  | nil => simp
  | cons e es ih =>
    rw [List.foldl_cons, ih, mapHasKey_mapInsert]
    simp [or_assoc]

/-- C2, counterexample: `Package::contents` applied to an archive holding a
`Cargo.toml` entry and a `.cargo_vcs_info.json` entry at top level.  Both
paths — whose basenames are exactly the two ignored filenames — ARE keys of
the returned map, contradicting the claim that such entries are skipped
while the map is built. -/
theorem c2_counterexample :
    mapHasKey (packageContents (fun d => d)
        [(["Cargo.toml"], [49]), ([".cargo_vcs_info.json"], [50])]) ["Cargo.toml"] = true
    ∧ mapHasKey (packageContents (fun d => d)
        [(["Cargo.toml"], [49]), ([".cargo_vcs_info.json"], [50])]) [".cargo_vcs_info.json"] = true
    ∧ is_path_ignored ["Cargo.toml"] = true
    ∧ is_path_ignored [".cargo_vcs_info.json"] = true := by
  decide

/-- C2 (corrected): `Package::contents` filters nothing — the keys of the
returned map are exactly the paths of the archive's entries, including paths
with an ignored basename.  The ignore-list is applied later, by
`PackageContents::compare`, which emits no outcome whose path has an ignored
basename. -/
theorem c2_contents_keeps_all_compare_filters :
    (∀ (sha512 : List Nat → List Nat) (entries : List (List String × List Nat))
        (p : List String),
        mapHasKey (packageContents sha512 entries) p = true ↔ p ∈ entries.map Prod.fst)
    ∧ (∀ (left right : List (List String × List Nat)) (o : PackageComparison),
        o ∈ comparePC left right → is_path_ignored (pcPath o) = false) := by
  constructor
  · intro sha512 entries p
    rw [packageContents, mapHasKey_contents_fold]
    simp [mapHasKey_iff]
  · intro left right o ho
    rw [comparePC, List.mem_append] at ho
    rcases ho with ho | ho
    · rw [List.mem_map] at ho
      obtain ⟨e, he, heq⟩ := ho
      rw [List.mem_filter] at he
      have hni : is_path_ignored e.1 = false := by
        simpa using he.2
      subst heq
      cases hmg : mapGet right e.1 with
      | none => simpa [hmg, pcPath] using hni
      | some rh =>
        by_cases hv : e.2 = rh
        · simpa [hmg, hv, pcPath] using hni
        · simpa [hmg, hv, pcPath] using hni
    · rw [List.mem_filterMap] at ho
      obtain ⟨e, he, heq⟩ := ho
      rw [List.mem_filter] at he
      have hni : is_path_ignored e.1 = false := by
        simpa using he.2
      by_cases hk : mapHasKey left e.1
      · rw [if_pos hk] at heq
        cases heq
      · rw [if_neg hk] at heq
        cases heq
        simpa [pcPath] using hni

/-- Witness for the compare clause of
`c2_contents_keeps_all_compare_filters`, at a one-entry left map. -/
theorem c2_contents_keeps_all_compare_filters_witness :
    is_path_ignored (pcPath (PackageComparison.OnlyLeft ["src", "main.rs"])) = false :=
  c2_contents_keeps_all_compare_filters.2 [(["src", "main.rs"], [1])] []
    (PackageComparison.OnlyLeft ["src", "main.rs"]) (by decide)

/-! ### C6 — anti-symmetry of `PackageContents::compare` (src/package.rs) -/

/-- In a map with unique keys — the `BTreeMap` invariant — a binding is a
member exactly when `get` finds it. -/
theorem mapGet_eq_some_iff (m : List (List String × List Nat))
    (k : List String) (v : List Nat) :
    (m.map Prod.fst).Nodup → (mapGet m k = some v ↔ (k, v) ∈ m) := by
  induction m with
  | nil =>
    intro _
    simp [mapGet]
  | cons e es ih =>
    intro hm
    obtain ⟨e1, e2⟩ := e
    rw [List.map_cons, List.nodup_cons] at hm
    by_cases h0 : e1 = k
    · subst h0
      have hget : mapGet ((e1, e2) :: es) e1 = some e2 := by
        simp [mapGet, List.find?_cons]
      rw [hget]
      constructor
      · intro h
        rw [Option.some_inj] at h
        subst h
        exact List.mem_cons_self _ _
      · intro hmem
        rcases List.mem_cons.mp hmem with hmem | hmem
        · injection hmem with h1 h2
          rw [h2]
        · exact absurd (List.mem_map_of_mem Prod.fst hmem) hm.1
    · have hget : mapGet ((e1, e2) :: es) k = mapGet es k := by
        simp [mapGet, List.find?_cons, h0]
      rw [hget, ih hm.2]
      constructor
      · exact fun h => List.mem_cons_of_mem _ h
      · intro hmem
        rcases List.mem_cons.mp hmem with hmem | hmem
        · injection hmem with h1 h2
          exact absurd h1.symm h0
        · exact hmem

/-- `get` misses a key exactly when no binding carries it. -/
theorem mapGet_eq_none_iff (m : List (List String × List Nat)) (k : List String) :
    mapGet m k = none ↔ mapHasKey m k = false := by
  rw [mapHasKey]
  cases mapGet m k <;> simp

/-- Membership of an `OnlyLeft` outcome in a comparison run. -/
theorem mem_comparePC_onlyLeft (left right : List (List String × List Nat))
    (p : List String) :
    PackageComparison.OnlyLeft p ∈ comparePC left right
      ↔ (is_path_ignored p = false ∧ mapHasKey left p = true ∧ mapGet right p = none) := by
  rw [comparePC, List.mem_append]
  constructor
  · rintro (h | h)
    · rw [List.mem_map] at h
      obtain ⟨e, he, heq⟩ := h
      rw [List.mem_filter] at he
      split at heq
      · split at heq <;> simp at heq
      · rename_i hmg
        injection heq with hep
        subst hep
        exact ⟨by simpa using he.2, (mapHasKey_iff _ _).mpr ⟨e, he.1, rfl⟩, hmg⟩
    · rw [List.mem_filterMap] at h
      obtain ⟨e, he, heq⟩ := h
      split at heq
      · cases heq
      · rw [Option.some_inj] at heq
        simp at heq
  · rintro ⟨hig, hkey, hnone⟩
    obtain ⟨e, he, hek⟩ := (mapHasKey_iff left p).mp hkey
    subst hek
    refine Or.inl (List.mem_map.mpr ⟨e, List.mem_filter.mpr ⟨he, by simp [hig]⟩, ?_⟩)
    rw [hnone]

/-- Membership of an `OnlyRight` outcome in a comparison run. -/
theorem mem_comparePC_onlyRight (left right : List (List String × List Nat))
    (p : List String) :
    PackageComparison.OnlyRight p ∈ comparePC left right
      ↔ (is_path_ignored p = false ∧ mapHasKey right p = true ∧ mapGet left p = none) := by
  rw [comparePC, List.mem_append]
  constructor
  · rintro (h | h)
    · rw [List.mem_map] at h
      obtain ⟨e, he, heq⟩ := h
      split at heq
      · split at heq <;> simp at heq
      · simp at heq
    · rw [List.mem_filterMap] at h
      obtain ⟨e, he, heq⟩ := h
      rw [List.mem_filter] at he
      split at heq
      · cases heq
      · rename_i hnk
        rw [Option.some_inj] at heq
        injection heq with hep
        subst hep
        refine ⟨by simpa using he.2, (mapHasKey_iff _ _).mpr ⟨e, he.1, rfl⟩, ?_⟩
        rw [mapGet_eq_none_iff]
        simpa using hnk
  · rintro ⟨hig, hkey, hnone⟩
    obtain ⟨e, he, hek⟩ := (mapHasKey_iff right p).mp hkey
    subst hek
    refine Or.inr (List.mem_filterMap.mpr
      ⟨e, List.mem_filter.mpr ⟨he, by simp [hig]⟩, ?_⟩)
    rw [if_neg]
    rw [mapGet_eq_none_iff] at hnone
    simp [hnone]

/-- Membership of an `Equal` outcome in a comparison run, for a left map
with unique keys. -/
theorem mem_comparePC_equal (left right : List (List String × List Nat))
    (hL : (left.map Prod.fst).Nodup) (p : List String) :
    PackageComparison.Equal p ∈ comparePC left right
      ↔ (is_path_ignored p = false
          ∧ ∃ h, mapGet left p = some h ∧ mapGet right p = some h) := by
  rw [comparePC, List.mem_append]
  constructor
  · rintro (h | h)
    · rw [List.mem_map] at h
      obtain ⟨e, he, heq⟩ := h
      rw [List.mem_filter] at he
      split at heq
      · rename_i rh hmg
        split at heq
        · rename_i hv
          injection heq with hep
          subst hep
          refine ⟨by simpa using he.2, e.2, ?_, by rw [hmg, hv]⟩
          exact (mapGet_eq_some_iff left e.1 e.2 hL).mpr (by simpa using he.1)
        · simp at heq
      · simp at heq
    · rw [List.mem_filterMap] at h
      obtain ⟨e, he, heq⟩ := h
      split at heq
      · cases heq
      · rw [Option.some_inj] at heq
        simp at heq
  · rintro ⟨hig, h, hgl, hgr⟩
    have hmem : (p, h) ∈ left := (mapGet_eq_some_iff left p h hL).mp hgl
    refine Or.inl (List.mem_map.mpr
      ⟨(p, h), List.mem_filter.mpr ⟨hmem, by simp [hig]⟩, ?_⟩)
    rw [hgr]
    simp

/-- Membership of a `Different` outcome in a comparison run, for a left map
with unique keys. -/
theorem mem_comparePC_different (left right : List (List String × List Nat))
    (hL : (left.map Prod.fst).Nodup) (p : List String) :
    PackageComparison.Different p ∈ comparePC left right
      ↔ (is_path_ignored p = false
          ∧ ∃ hl hr, mapGet left p = some hl ∧ mapGet right p = some hr ∧ hl ≠ hr) := by
  rw [comparePC, List.mem_append]
  constructor
  · rintro (h | h)
    · rw [List.mem_map] at h
      obtain ⟨e, he, heq⟩ := h
      rw [List.mem_filter] at he
      split at heq
      · rename_i rh hmg
        split at heq
        · simp at heq
        · rename_i hv
          injection heq with hep
          subst hep
          refine ⟨by simpa using he.2, e.2, rh, ?_, hmg, hv⟩
          exact (mapGet_eq_some_iff left e.1 e.2 hL).mpr (by simpa using he.1)
      · simp at heq
    · rw [List.mem_filterMap] at h
      obtain ⟨e, he, heq⟩ := h
      split at heq
      · cases heq
      · rw [Option.some_inj] at heq
        simp at heq
  · rintro ⟨hig, hl, hr, hgl, hgr, hne⟩
    have hmem : (p, hl) ∈ left := (mapGet_eq_some_iff left p hl hL).mp hgl
    refine Or.inl (List.mem_map.mpr
      ⟨(p, hl), List.mem_filter.mpr ⟨hmem, by simp [hig]⟩, ?_⟩)
    rw [hgr]
    simp [hne]

/-- C6 (confirmed): comparison is anti-symmetric.  Swapping the two maps
turns `OnlyLeft` outcomes into `OnlyRight` outcomes at the same paths and
vice versa, and preserves the paths of `Equal` and `Different` outcomes. -/
theorem c6_compare_antisymmetric (l r : List (List String × List Nat))
    (hl : (l.map Prod.fst).Nodup) (hr : (r.map Prod.fst).Nodup) (p : List String) :
    (PackageComparison.OnlyRight p ∈ comparePC r l
      ↔ PackageComparison.OnlyLeft p ∈ comparePC l r)
    ∧ (PackageComparison.OnlyLeft p ∈ comparePC r l
      ↔ PackageComparison.OnlyRight p ∈ comparePC l r)
    ∧ (PackageComparison.Equal p ∈ comparePC r l
      ↔ PackageComparison.Equal p ∈ comparePC l r)
    ∧ (PackageComparison.Different p ∈ comparePC r l
      ↔ PackageComparison.Different p ∈ comparePC l r) := by
  refine ⟨?_, ?_, ?_, ?_⟩
  · rw [mem_comparePC_onlyRight, mem_comparePC_onlyLeft]
  · rw [mem_comparePC_onlyLeft, mem_comparePC_onlyRight]
  · rw [mem_comparePC_equal r l hr, mem_comparePC_equal l r hl]
    constructor
    · rintro ⟨hig, h, hgr, hgl⟩
      exact ⟨hig, h, hgl, hgr⟩
    · rintro ⟨hig, h, hgl, hgr⟩
      exact ⟨hig, h, hgr, hgl⟩
  · rw [mem_comparePC_different r l hr, mem_comparePC_different l r hl]
    constructor
    · rintro ⟨hig, ha, hb, hga, hgb, hne⟩
      exact ⟨hig, hb, ha, hgb, hga, hne.symm⟩
    · rintro ⟨hig, ha, hb, hga, hgb, hne⟩
      exact ⟨hig, hb, ha, hgb, hga, hne.symm⟩

/-- Witness for `c6_compare_antisymmetric` at two concrete maps sharing one
equal path, one differing path and one path on each private side. -/
theorem c6_compare_antisymmetric_witness :
    (PackageComparison.OnlyRight ["onlyL"] ∈
        comparePC [(["b"], [7]), (["onlyR"], [3])] [(["a"], [1]), (["b"], [2]), (["onlyL"], [9])]
      ↔ PackageComparison.OnlyLeft ["onlyL"] ∈
        comparePC [(["a"], [1]), (["b"], [2]), (["onlyL"], [9])] [(["b"], [7]), (["onlyR"], [3])]) :=
  (c6_compare_antisymmetric [(["a"], [1]), (["b"], [2]), (["onlyL"], [9])]
    [(["b"], [7]), (["onlyR"], [3])] (by decide) (by decide) ["onlyL"]).1

/-! ### C4 — the whitespace-skipping reader (src/io.rs) -/

/-- The inner loop writes exactly the non-whitespace part of the bytes it
consumes, consumes at most the chunk, writes at most the free space, and
stops only on an exhausted chunk or a full buffer. -/
theorem wsInner_spec (l : List Nat) (s : Nat) :
    (wsInner l s).1 = ((l.take (wsInner l s).2).filter (fun b => !isAsciiWhitespace b))
    ∧ (wsInner l s).2 ≤ l.length
    ∧ (wsInner l s).1.length ≤ s
    ∧ ((wsInner l s).2 = l.length ∨ (wsInner l s).1.length = s) := by
  induction l generalizing s with
  | nil => simp [wsInner]
  | cons b rest ih =>
    cases s with
    | zero => simp [wsInner]
    | succ s =>
      by_cases hw : isAsciiWhitespace b
      · have heq : wsInner (b :: rest) (s + 1)
            = ((wsInner rest (s + 1)).1, (wsInner rest (s + 1)).2 + 1) := by
          rw [wsInner, if_pos hw]
        obtain ⟨h1, h2, h3, h4⟩ := ih (s + 1)
        rw [heq]
        refine ⟨?_, ?_, h3, ?_⟩
        · rw [List.take_succ_cons, List.filter_cons]
          simp [hw, h1]
        · simpa using h2
        · rcases h4 with h4 | h4
          · exact Or.inl (by simp [h4])
          · exact Or.inr h4
      · have heq : wsInner (b :: rest) (s + 1)
            = (b :: (wsInner rest s).1, (wsInner rest s).2 + 1) := by
          rw [wsInner, if_neg hw]
        obtain ⟨h1, h2, h3, h4⟩ := ih s
        rw [heq]
        refine ⟨?_, ?_, ?_, ?_⟩
        · rw [List.take_succ_cons, List.filter_cons]
          simp [hw, h1]
        · simpa using h2
        · simpa using h3
        · rcases h4 with h4 | h4
          · exact Or.inl (by simp [h4])
          · exact Or.inr (by simp [h4])

/-- One `read` call writes the non-whitespace filter of some consumed prefix
of the stream, leaves exactly the rest of the stream, preserves the
no-empty-chunk invariant, and ends only with a full buffer or an exhausted
stream. -/
theorem wsRead_spec (chunks : List (List Nat)) (s : Nat) :
    (∀ c ∈ chunks, c ≠ []) →
    ∃ k, (wsRead chunks s).1
          = ((chunks.flatten.take k).filter (fun b => !isAsciiWhitespace b))
      ∧ (wsRead chunks s).2.flatten = chunks.flatten.drop k
      ∧ (∀ c ∈ (wsRead chunks s).2, c ≠ [])
      ∧ ((wsRead chunks s).1.length = s ∨ (wsRead chunks s).2 = []) := by
  induction chunks, s using wsRead.induct with
  | case1 chunks =>
    intro h
    have heq : wsRead chunks 0 = ([], chunks) := by rw [wsRead]
    exact ⟨0, by simp [heq], by simp [heq], by simpa [heq] using h, Or.inl (by simp [heq])⟩
  | case2 s =>
    intro _
    have heq : wsRead [] (s + 1) = ([], []) := by rw [wsRead]
    exact ⟨0, by simp [heq], by simp [heq], by simp [heq], Or.inr (by simp [heq])⟩
  | case3 rest s =>
    intro h
    exact absurd rfl (h [] (List.mem_cons_self _ _))
  | case4 b chunk rest s r newChunk chunks2 ih =>
    intro h
    obtain ⟨w1, w2, w3, w4⟩ := wsInner_spec (b :: chunk) (s + 1)
    have hrdef : r = wsInner (b :: chunk) (s + 1) := rfl
    have hncdef : newChunk = (b :: chunk).drop r.2 := rfl
    have hc2def : chunks2 = if newChunk.isEmpty then rest else newChunk :: rest := rfl
    rw [← hrdef] at w1 w2 w3 w4
    have heq : wsRead ((b :: chunk) :: rest) (s + 1)
        = (r.1 ++ (wsRead chunks2 (s + 1 - r.1.length)).1,
           (wsRead chunks2 (s + 1 - r.1.length)).2) := by
      rw [wsRead]
      rfl
    have hinv : ∀ c ∈ chunks2, c ≠ [] := by
      rw [hc2def]
      split
      · exact fun c hc => h c (List.mem_cons_of_mem _ hc)
      · rename_i hne
        intro c hc
        rcases List.mem_cons.mp hc with hc | hc
        · subst hc
          simpa [List.isEmpty_iff] using hne
        · exact h c (List.mem_cons_of_mem _ hc)
    have hflat2 : chunks2.flatten = ((b :: chunk) ++ rest.flatten).drop r.2 := by
      rw [List.drop_append_of_le_length w2, hc2def]
      split
      · rename_i hemp
        rw [List.isEmpty_iff] at hemp
        rw [← hncdef, hemp, List.nil_append]
      · rw [List.flatten_cons, hncdef]
    obtain ⟨k, hk1, hk2, hk3, hk4⟩ := ih hinv
    refine ⟨r.2 + k, ?_, ?_, ?_, ?_⟩
    · rw [heq, List.flatten_cons, List.take_add, List.filter_append,
        List.take_append_of_le_length w2, ← w1, hk1, hflat2]
    · rw [heq, hk2, hflat2, List.drop_drop, List.flatten_cons]
    · rw [heq]
      exact hk3
    · rw [heq]
      rcases hk4 with hk4 | hk4
      · left
        rw [List.length_append, hk4]
        omega
      · right
        exact hk4

/-- With fuel exceeding the stream's byte count, the `io::copy` loop reads
the whole stream and yields exactly its non-whitespace bytes. -/
theorem wsReadToEndFuel_spec (fuel : Nat) :
    ∀ (bufSize : Nat) (chunks : List (List Nat)),
      chunks.flatten.length < fuel → 0 < bufSize → (∀ c ∈ chunks, c ≠ []) →
      wsReadToEndFuel fuel bufSize chunks
        = chunks.flatten.filter (fun b => !isAsciiWhitespace b) := by
  induction fuel with
  | zero =>
    intro bufSize chunks hlt hbuf hinv
    exact absurd hlt (Nat.not_lt_zero _)
  | succ fuel ih =>
    intro bufSize chunks hlt hbuf hinv
    obtain ⟨k, hk1, hk2, hk3, hk4⟩ := wsRead_spec chunks bufSize hinv
    rw [wsReadToEndFuel]
    by_cases hemp : (wsRead chunks bufSize).1.isEmpty
    · rw [if_pos hemp]
      rw [List.isEmpty_iff] at hemp
      have hnil : (wsRead chunks bufSize).2 = [] := by
        rcases hk4 with hk4 | hk4
        · rw [hemp] at hk4
          simp only [List.length_nil] at hk4
          omega
        · exact hk4
      have hkge : chunks.flatten.length ≤ k := by
        rw [← List.drop_eq_nil_iff, ← hk2, hnil]
        rfl
      rw [List.take_of_length_le hkge] at hk1
      rw [← hk1, hemp]
    · rw [if_neg hemp]
      rw [List.isEmpty_iff] at hemp
      have hkpos : 0 < k := by
        rcases Nat.eq_zero_or_pos k with hz | hp
        · rw [hz] at hk1
          simp at hk1
          exact absurd hk1 hemp
        · exact hp
      have hflatpos : 0 < chunks.flatten.length := by
        rcases Nat.eq_zero_or_pos chunks.flatten.length with hz | hp
        · rw [List.length_eq_zero] at hz
          rw [hz] at hk1
          simp at hk1
          exact absurd hk1 hemp
        · exact hp
      have hrec := ih bufSize (wsRead chunks bufSize).2
        (by rw [hk2, List.length_drop]; omega) hbuf hk3
      rw [hrec, hk1, hk2, ← List.filter_append, List.take_append_drop]

/-- C4 (confirmed): reading any stream to the end through
`AsciiWhitespaceSkippingReader` yields exactly the input bytes with all
ASCII whitespace bytes removed, in their original order — for every chunking
of the stream by the underlying `BufRead` and every positive buffer size.
Consequently any digest taken over the reader's output agrees on two streams
that are equal after deleting ASCII whitespace. -/
theorem c4_whitespace_skipping_reader :
    (∀ (bufSize : Nat) (chunks : List (List Nat)),
        0 < bufSize → (∀ c ∈ chunks, c ≠ []) →
        wsReadToEnd bufSize chunks
          = chunks.flatten.filter (fun b => !isAsciiWhitespace b))
    ∧ (∀ (digest : List Nat → List Nat) (b1 b2 : Nat)
        (c1 c2 : List (List Nat)),
        0 < b1 → 0 < b2 → (∀ c ∈ c1, c ≠ []) → (∀ c ∈ c2, c ≠ []) →
        c1.flatten.filter (fun b => !isAsciiWhitespace b)
          = c2.flatten.filter (fun b => !isAsciiWhitespace b) →
        digest (wsReadToEnd b1 c1) = digest (wsReadToEnd b2 c2)) := by
  have key : ∀ (bufSize : Nat) (chunks : List (List Nat)),
      0 < bufSize → (∀ c ∈ chunks, c ≠ []) →
      wsReadToEnd bufSize chunks
        = chunks.flatten.filter (fun b => !isAsciiWhitespace b) := by
    intro bufSize chunks hbuf hinv
    exact wsReadToEndFuel_spec (chunks.flatten.length + 1) bufSize chunks
      (Nat.lt_succ_self _) hbuf hinv
  refine ⟨key, ?_⟩
  intro digest b1 b2 c1 c2 h1 h2 hc1 hc2 hfil
  rw [key b1 c1 h1 hc1, key b2 c2 h2 hc2, hfil]

/-- Witness for `c4_whitespace_skipping_reader` on a concrete chunked
stream: `" A"`, `"\tB\n"`, `"C"` reads back as `"ABC"`. -/
theorem c4_whitespace_skipping_reader_witness :
    wsReadToEnd 3 [[32, 65], [9, 66, 10], [67]] = [65, 66, 67] := by
  rw [c4_whitespace_skipping_reader.1 3 [[32, 65], [9, 66, 10], [67]]
    (by decide) (by decide)]
  decide

/-! ### C5 and C10 — URL normalization (src/git.rs lines 229–259) -/

/-- `split` always yields at least one segment. -/
theorem splitOnChar_ne_nil (c : Char) (l : List Char) : splitOnChar c l ≠ [] := by
  cases l with
  | nil => simp [splitOnChar]
  | cons x xs =>
    rw [splitOnChar]
    split <;> simp

/-- Splitting a separator-free string yields that string as the only
segment. -/
theorem splitOnChar_of_not_mem (c : Char) (l : List Char) (h : c ∉ l) :
    splitOnChar c l = [l] := by
  induction l with
  | nil => rfl
  | cons x xs ih =>
    rw [List.mem_cons, not_or] at h
    rw [splitOnChar, if_neg (fun hx => h.1 hx.symm), ih h.2]
    simp

/-- Splitting a string that starts with a separator-free segment followed by
the separator peels off that segment. -/
theorem splitOnChar_append (c : Char) (s t : List Char) (h : c ∉ s) :
    splitOnChar c (s ++ c :: t) = s :: splitOnChar c t := by
  induction s with
  | nil =>
    rw [List.nil_append, splitOnChar, if_pos rfl]
  | cons y s' ih =>
    rw [List.mem_cons, not_or] at h
    rw [List.cons_append, splitOnChar, if_neg (fun hy => h.1 hy.symm), ih h.2]
    simp

/-- No segment produced by `split` contains the separator. -/
theorem mem_splitOnChar_not_mem (c : Char) (l : List Char) :
    ∀ s ∈ splitOnChar c l, c ∉ s := by
  induction l with
  | nil =>
    intro s hs
    rw [splitOnChar, List.mem_singleton] at hs
    subst hs
    exact List.not_mem_nil c
  | cons x xs ih =>
    intro s hs
    rw [splitOnChar] at hs
    by_cases hx : x = c
    · rw [if_pos hx, List.mem_cons] at hs
      rcases hs with hs | hs
      · subst hs
        exact List.not_mem_nil c
      · exact ih s hs
    · rw [if_neg hx] at hs
      rcases hspl : splitOnChar c xs with _ | ⟨s0, ss⟩
      · exact absurd hspl (splitOnChar_ne_nil c xs)
      · rw [hspl] at hs
        simp only [List.headI_cons, List.tail_cons, List.mem_cons] at hs
        rcases hs with hs | hs
        · subst hs
          rw [List.mem_cons, not_or]
          refine ⟨fun hc => hx hc.symm, ?_⟩
          exact ih s0 (hspl ▸ List.mem_cons_self _ _)
        · exact ih s (hspl ▸ List.mem_cons_of_mem _ hs)

/-- A string not of the reversed-`.git` shape is left unchanged. -/
theorem dropGitGroupsRev_eq_self (l : List Char)
    (h : ∀ rest, l = 't' :: 'i' :: 'g' :: '.' :: rest → False) :
    dropGitGroupsRev l = l := by
  unfold dropGitGroupsRev
  split
  · rename_i rest
    exact absurd rfl (h rest)
  · rfl

/-- Stripping reversed-`.git` groups is idempotent. -/
theorem dropGitGroupsRev_fix (l : List Char) :
    dropGitGroupsRev (dropGitGroupsRev l) = dropGitGroupsRev l := by
  induction l using dropGitGroupsRev.induct with
  | case1 rest ih => exact ih
  | case2 l hne =>
    rw [dropGitGroupsRev_eq_self l hne]
    exact dropGitGroupsRev_eq_self l hne

/-- The group stripper only removes characters. -/
theorem mem_dropGitGroupsRev (c : Char) (l : List Char) :
    c ∈ dropGitGroupsRev l → c ∈ l := by
  induction l using dropGitGroupsRev.induct with
  | case1 rest ih =>
    intro h
    exact List.Mem.tail _ (List.Mem.tail _ (List.Mem.tail _ (List.Mem.tail _ (ih h))))
  | case2 l hne =>
    intro h
    rwa [dropGitGroupsRev_eq_self l hne] at h

/-- `trim_end_matches(".git")` absorbs one appended `.git`. -/
theorem trimEndGit_append_git (l : List Char) :
    trimEndGit (l ++ ".git".toList) = trimEndGit l := by
  have h : (l ++ ".git".toList).reverse = 't' :: 'i' :: 'g' :: '.' :: l.reverse := by
    rw [List.reverse_append]
    rfl
  rw [trimEndGit, h, trimEndGit]
  rfl

/-- `trim_end_matches(".git")` is idempotent. -/
theorem trimEndGit_fix (l : List Char) :
    trimEndGit (trimEndGit l) = trimEndGit l := by
  rw [trimEndGit, trimEndGit, List.reverse_reverse, dropGitGroupsRev_fix]

/-- Trimming only removes characters. -/
theorem mem_trimEndGit (c : Char) (l : List Char) (h : c ∈ trimEndGit l) : c ∈ l := by
  rw [trimEndGit, List.mem_reverse] at h
  have h2 := mem_dropGitGroupsRev c l.reverse h
  rwa [List.mem_reverse] at h2

/-- Normalization on an accepted known-forge URL: the path is rewritten to
`/{owner}/{trimmed repo}.git`, every other component untouched. -/
theorem gitUrlTryFrom_forge (u : RUrl) (host pathRest owner repo : List Char)
    (rest : List (List Char))
    (hscheme : u.scheme = "http".toList ∨ u.scheme = "https".toList)
    (hhost : u.host = some host) (hforge : isForgeHost host = true)
    (hpath : u.path = '/' :: pathRest)
    (hsplit : splitOnChar '/' pathRest = owner :: repo :: rest) :
    gitUrlTryFrom u = .ok { u with
      path := '/' :: (owner ++ '/' :: (trimEndGit repo ++ ".git".toList)) } := by
  rw [gitUrlTryFrom, if_pos hscheme, hhost]
  simp only []
  rw [if_pos hforge, hpath]
  simp only [hsplit]

/-- Normalization on an accepted URL of an unknown host: pass-through. -/
theorem gitUrlTryFrom_passthrough (u : RUrl) (host : List Char)
    (hscheme : u.scheme = "http".toList ∨ u.scheme = "https".toList)
    (hhost : u.host = some host) (hforge : isForgeHost host = false) :
    gitUrlTryFrom u = .ok u := by
  rw [gitUrlTryFrom, if_pos hscheme, hhost]
  simp only []
  rw [if_neg (by simp [hforge])]

/-- Every successful normalization leaves scheme, host, port, query and
fragment unchanged. -/
theorem gitUrlTryFrom_preserves_fields (u v : RUrl) (h : gitUrlTryFrom u = .ok v) :
    v.scheme = u.scheme ∧ v.host = u.host ∧ v.port = u.port
      ∧ v.query = u.query ∧ v.fragment = u.fragment := by
  rw [gitUrlTryFrom] at h
  split at h
  · split at h
    · simp at h
    · rename_i host hhost
      split at h
      · split at h
        · split at h
          · simp at h
          · simp at h
          · rw [Except.ok.injEq] at h
            subst h
            exact ⟨rfl, rfl, rfl, rfl, rfl⟩
        · simp at h
      · rw [Except.ok.injEq] at h
        subst h
        exact ⟨rfl, rfl, rfl, rfl, rfl⟩
  · simp at h

/-- C5 (confirmed): normalization is idempotent — normalizing the output of
a successful normalization succeeds and returns it unchanged, so the
resulting keys compare equal. -/
theorem c5_normalize_idempotent (u v : RUrl) (h : gitUrlTryFrom u = .ok v) :
    gitUrlTryFrom v = .ok v := by
  obtain ⟨hv1, hv2, _, _, _⟩ := gitUrlTryFrom_preserves_fields u v h
  rw [gitUrlTryFrom] at h
  split at h
  · rename_i hscheme
    split at h
    · simp at h
    · rename_i host hhost
      split at h
      · rename_i hforge
        split at h
        · rename_i pathRest hpath
          split at h
          · simp at h
          · simp at h
          · rename_i owner repo rest hsplit
            rw [Except.ok.injEq] at h
            have howner : '/' ∉ owner :=
              mem_splitOnChar_not_mem '/' pathRest owner
                (hsplit ▸ List.mem_cons_self _ _)
            have hrepo : '/' ∉ repo :=
              mem_splitOnChar_not_mem '/' pathRest repo
                (hsplit ▸ List.mem_cons_of_mem _ (List.mem_cons_self _ _))
            have hseg : '/' ∉ trimEndGit repo ++ ".git".toList := by
              rw [List.mem_append, not_or]
              exact ⟨fun hc => hrepo (mem_trimEndGit _ _ hc), by decide⟩
            have hvpath : v.path
                = '/' :: (owner ++ '/' :: (trimEndGit repo ++ ".git".toList)) :=
              (congrArg RUrl.path h).symm
            have hsplit2 : splitOnChar '/' (owner ++ '/' :: (trimEndGit repo ++ ".git".toList))
                = owner :: (trimEndGit repo ++ ".git".toList) :: [] := by
              rw [splitOnChar_append '/' owner _ howner,
                splitOnChar_of_not_mem '/' _ hseg]
            rw [gitUrlTryFrom_forge v host
              (owner ++ '/' :: (trimEndGit repo ++ ".git".toList))
              owner (trimEndGit repo ++ ".git".toList) []
              (hv1 ▸ hscheme) (hv2 ▸ hhost) hforge hvpath hsplit2]
            rw [trimEndGit_append_git, trimEndGit_fix, ← hvpath]
        · simp at h
      · rename_i hforge
        rw [Except.ok.injEq] at h
        subst h
        exact gitUrlTryFrom_passthrough u host hscheme hhost
          (by simpa using hforge)
  · simp at h

/-- Witness for `c5_normalize_idempotent`: the key computed for the
repository URL of this very project, with an extra path segment and a
trailing `.git`, is a fixed point of normalization. -/
theorem c5_normalize_idempotent_witness :
    gitUrlTryFrom
        ⟨"https".toList, some "github.com".toList, none,
          "/M4SS-Code/cargo-goggles.git".toList, none, none⟩
      = .ok ⟨"https".toList, some "github.com".toList, none,
          "/M4SS-Code/cargo-goggles.git".toList, none, none⟩ :=
  c5_normalize_idempotent
    ⟨"https".toList, some "github.com".toList, none,
      "/M4SS-Code/cargo-goggles.git/extra".toList, none, none⟩
    ⟨"https".toList, some "github.com".toList, none,
      "/M4SS-Code/cargo-goggles.git".toList, none, none⟩
    rfl

/-- C10 (confirmed): on a known-forge host (`github.com`, or a host starting
with `gitlab.`) normalization rewrites only the path; scheme, host, port,
query string and fragment are returned unchanged, and two accepted URLs
whose query strings or fragments differ normalize to distinct keys. -/
theorem c10_normalize_rewrites_only_path :
    (∀ (u v : RUrl) (host : List Char),
        u.host = some host → isForgeHost host = true →
        gitUrlTryFrom u = .ok v →
        v.scheme = u.scheme ∧ v.host = u.host ∧ v.port = u.port
          ∧ v.query = u.query ∧ v.fragment = u.fragment)
    ∧ (∀ (u1 u2 v1 v2 : RUrl),
        gitUrlTryFrom u1 = .ok v1 → gitUrlTryFrom u2 = .ok v2 →
        (u1.query ≠ u2.query ∨ u1.fragment ≠ u2.fragment) → v1 ≠ v2) := by
  constructor
  · intro u v host _ _ h
    exact gitUrlTryFrom_preserves_fields u v h
  · intro u1 u2 v1 v2 h1 h2 hne heq
    obtain ⟨_, _, _, hq1, hf1⟩ := gitUrlTryFrom_preserves_fields u1 v1 h1
    obtain ⟨_, _, _, hq2, hf2⟩ := gitUrlTryFrom_preserves_fields u2 v2 h2
    rcases hne with hne | hne
    · exact hne (hq1 ▸ hq2 ▸ heq ▸ rfl)
    · exact hne (hf1 ▸ hf2 ▸ heq ▸ rfl)

/-- Witness for `c10_normalize_rewrites_only_path` at a concrete GitHub URL
carrying a port, a query string and a fragment. -/
theorem c10_normalize_rewrites_only_path_witness :
    (⟨"https".toList, some "github.com".toList, some 443,
        "/a/b.git".toList, some "ref=1".toList, some "frag".toList⟩ : RUrl).scheme
      = (⟨"https".toList, some "github.com".toList, some 443,
        "/a/b".toList, some "ref=1".toList, some "frag".toList⟩ : RUrl).scheme
    ∧ (⟨"https".toList, some "github.com".toList, some 443,
        "/a/b.git".toList, some "ref=1".toList, some "frag".toList⟩ : RUrl).host
      = (⟨"https".toList, some "github.com".toList, some 443,
        "/a/b".toList, some "ref=1".toList, some "frag".toList⟩ : RUrl).host
    ∧ (⟨"https".toList, some "github.com".toList, some 443,
        "/a/b.git".toList, some "ref=1".toList, some "frag".toList⟩ : RUrl).port
      = (⟨"https".toList, some "github.com".toList, some 443,
        "/a/b".toList, some "ref=1".toList, some "frag".toList⟩ : RUrl).port
    ∧ (⟨"https".toList, some "github.com".toList, some 443,
        "/a/b.git".toList, some "ref=1".toList, some "frag".toList⟩ : RUrl).query
      = (⟨"https".toList, some "github.com".toList, some 443,
        "/a/b".toList, some "ref=1".toList, some "frag".toList⟩ : RUrl).query
    ∧ (⟨"https".toList, some "github.com".toList, some 443,
        "/a/b.git".toList, some "ref=1".toList, some "frag".toList⟩ : RUrl).fragment
      = (⟨"https".toList, some "github.com".toList, some 443,
        "/a/b".toList, some "ref=1".toList, some "frag".toList⟩ : RUrl).fragment :=
  c10_normalize_rewrites_only_path.1
    ⟨"https".toList, some "github.com".toList, some 443,
      "/a/b".toList, some "ref=1".toList, some "frag".toList⟩
    ⟨"https".toList, some "github.com".toList, some 443,
      "/a/b.git".toList, some "ref=1".toList, some "frag".toList⟩
    "github.com".toList rfl rfl rfl

end CargoGoggles
